import Mathlib

/-!
Verification of the core deduplication logic of `slide_extractor.py`
(Lecture Slide Extractor).

The embedded code is the perceptual-hash / deduplication core:

* `_HASH_SIZE`   — the grid constant (16);
* `_phash`       — the difference hash over a resampled luminance grid;
* `_hamming`     — `bin(a ^ b).count("1")`, the Hamming distance;
* `deduplicate`  — the single-pass streaming reducer.

Images are modelled at the post-resample boundary: `Image.open` followed by
`convert("L").resize((17, 16), LANCZOS)` always yields a 16-row × 17-column
luminance grid, which we represent as a total pixel-lookup function
`ℕ → ℕ` (index `row * 17 + col`, values are the 8-bit luminances; the code
only ever reads indices `0 … 271`).  A candidate frame is its opaque path
identifier together with either that grid or `none` when `Image.open`/decoding
raises (the `except` branch of the loop).  The similarity threshold, a Python
float, is modelled as a rational number; Python's `int()` conversion
(truncation towards zero) is modelled exactly by `pyInt`.
-/

set_option maxRecDepth 40000

/-- Grid constant from the source: `_HASH_SIZE = 16`. -/
def _HASH_SIZE : ℕ := 16

/-- Difference hash of the source's `_phash`, taken from the resampled
16 × 17 luminance grid onward: the nested `for row / for col` loop
accumulating `bits = (bits << 1) | (1 if pixels[idx] > pixels[idx + 1] else 0)`
with `idx = row * (_HASH_SIZE + 1) + col`. -/
def _phash (pixels : ℕ → ℕ) : ℕ :=
  (List.range _HASH_SIZE).foldl (fun bits row =>
    (List.range _HASH_SIZE).foldl (fun bits col =>
      let idx := row * (_HASH_SIZE + 1) + col
      (bits <<< 1) ||| (if pixels idx > pixels (idx + 1) then 1 else 0)) bits) 0

/-- Structural worker for `popCount`: peels binary digits while fuel lasts.
Since `n < 2 ^ n`, fuel `n` always suffices for input `n`. -/
def popCountAux : ℕ → ℕ → ℕ
  | 0, _ => 0
  | _, 0 => 0
  | fuel + 1, n + 1 => (n + 1) % 2 + popCountAux fuel ((n + 1) / 2)

/-- Population count of a natural number: the number of `1` digits of its
binary expansion, i.e. Python's `bin(n).count("1")`. -/
def popCount (n : ℕ) : ℕ := popCountAux n n

/-- Hamming distance of the source's `_hamming`: `bin(a ^ b).count("1")`. -/
def _hamming (a b : ℕ) : ℕ := popCount (a ^^^ b)

/-- Python's `int()` conversion applied to an exact rational: truncation
towards zero. -/
def pyInt (q : ℚ) : ℤ := if 0 ≤ q then ⌊q⌋ else ⌈q⌉

/-- Integer Hamming cutoff computed at the top of `deduplicate`:
`max_dist = int((1.0 - similarity_threshold) * (_HASH_SIZE * _HASH_SIZE))`. -/
def max_dist (similarity_threshold : ℚ) : ℤ :=
  pyInt ((1 - similarity_threshold) * ((_HASH_SIZE : ℚ) * (_HASH_SIZE : ℚ)))

/-- Candidate frame handed to `deduplicate`: the opaque path identifier and
the decoded, resampled image grid, or `none` when `Image.open(path)` (or the
subsequent pixel access) raises and the `except` branch fires. -/
structure Frame where
  path : ℕ
  img : Option (ℕ → ℕ)

/-- Body of the `for path in paths` loop of `deduplicate`, acting on the
state `(kept, kept_hashes)`: an unreadable frame is skipped (`continue`);
otherwise `h = _phash(Image.open(path))` is kept — with `path` appended to
`kept` and `h` to `kept_hashes` — exactly when `not kept_hashes or
_hamming(h, kept_hashes[-1]) > max_dist`. -/
def dedupStep (md : ℤ) (st : List ℕ × List ℕ) (f : Frame) : List ℕ × List ℕ :=
  match Frame.img f with
  | none => st
  | some g =>
    let h := _phash g
    match (st.2).getLast? with
    | none => (st.1 ++ [Frame.path f], st.2 ++ [h])
    | some lastKept =>
      if md < (_hamming h lastKept : ℤ) then (st.1 ++ [Frame.path f], st.2 ++ [h])
      else st

/-- The source's `deduplicate(paths, similarity_threshold)`: starting from
`kept = []`, `kept_hashes = []`, fold the loop body over the candidate list
and return `kept`. -/
def deduplicate (paths : List Frame) (similarity_threshold : ℚ) : List ℕ :=
  (paths.foldl (dedupStep (max_dist similarity_threshold)) ([], [])).1

/-- Concrete 16 × 17 luminance grid whose difference hash is `2 ^ k - 1`
(the `k` lowest bits set): every row is constant except the last, whose tail
strictly descends through the final `k` adjacent pairs. -/
def unaryGrid (k : ℕ) : ℕ → ℕ := fun idx =>
  if idx < 255 then 0
  else if idx - 255 ≤ 16 - k then k
  else 16 - (idx - 255)

/-- Comparison bit of the difference hash at flattened cell index `k`
(`row = k / 16`, `col = k % 16`, pixel index `row * 17 + col`). -/
def dhashBit (pixels : ℕ → ℕ) (k : ℕ) : ℕ :=
  if pixels (k / _HASH_SIZE * (_HASH_SIZE + 1) + k % _HASH_SIZE)
      > pixels (k / _HASH_SIZE * (_HASH_SIZE + 1) + k % _HASH_SIZE + 1) then 1 else 0

/-- Accumulator value of the difference-hash loop after the first `n` of the
256 cells have been processed. -/
def phashVal (pixels : ℕ → ℕ) : ℕ → ℕ
  | 0 => 0
  | n + 1 => 2 * phashVal pixels n + dhashBit pixels n

/-- Default grid used only to read off the hash of a frame already known to
be decodable. -/
def defaultGrid : ℕ → ℕ := fun _ => 0

/-- Fingerprint that `deduplicate` stores for a decodable frame. -/
def hashOf (f : Frame) : ℕ := _phash ((Frame.img f).getD defaultGrid)

/-- Concrete four-frame input witnessing non-monotonicity of the retained
count in the threshold: fingerprints `0`, `7`, `31`, `1` (pairwise Hamming
distances `3`, `2` and `5`, `4` along the two possible chains). -/
def cexFrames : List Frame :=
  [⟨0, some (unaryGrid 0)⟩, ⟨1, some (unaryGrid 3)⟩,
   ⟨2, some (unaryGrid 5)⟩, ⟨3, some (unaryGrid 1)⟩]

/-- Evaluating `deduplicate` once the rational cutoff has been computed:
with `max_dist t = d` the run is the integer-only fold. -/
lemma deduplicate_eval (l : List Frame) (t : ℚ) (d : ℤ) (h : max_dist t = d) :
    deduplicate l t = (l.foldl (dedupStep d) ([], [])).1 := by
  rw [deduplicate, h]

lemma dhashBit_le_one (pixels : ℕ → ℕ) (k : ℕ) : dhashBit pixels k ≤ 1 := by
  unfold dhashBit; split <;> simp

lemma shiftLeft_one_lor (bits b : ℕ) (hb : b < 2) :
    (bits <<< 1) ||| b = 2 * bits + b := by
  have h := Nat.mul_add_lt_is_or (b := b) (i := 1) (by simpa using hb) bits
  rw [Nat.shiftLeft_eq]
  simpa [Nat.pow_one, Nat.mul_comm] using h.symm

lemma foldl_range_flatten (f : ℕ → ℕ → ℕ) (n : ℕ) :
    ∀ (m : ℕ) (a : ℕ),
      (List.range m).foldl
        (fun b row => (List.range n).foldl (fun b col => f b (row * n + col)) b) a
      = (List.range (m * n)).foldl f a := by
  intro m
  induction m with
  | zero => intro a; simp
  | succ m ih =>
    intro a
    rw [List.range_succ, List.foldl_append, ih, Nat.succ_mul, List.range_add,
      List.foldl_append, List.foldl_map]
    simp only [List.foldl_cons, List.foldl_nil]

lemma foldl_dhash_step (pixels : ℕ → ℕ) :
    ∀ n, (List.range n).foldl (fun b k => (b <<< 1) ||| dhashBit pixels k) 0
      = phashVal pixels n := by
  intro n
  induction n with
  | zero => simp [phashVal]
  | succ n ih =>
    rw [List.range_succ, List.foldl_append, ih]
    simp only [List.foldl_cons, List.foldl_nil, phashVal]
    exact shiftLeft_one_lor _ _ (Nat.lt_succ_of_le (dhashBit_le_one pixels n))

lemma phash_eq_phashVal (pixels : ℕ → ℕ) :
    _phash pixels = phashVal pixels (_HASH_SIZE * _HASH_SIZE) := by
  rw [_phash, ← foldl_dhash_step pixels, ← foldl_range_flatten]
  refine List.foldl_ext _ _ 0 ?_
  intro a row hrow
  refine List.foldl_ext _ _ a ?_
  intro b col hcol
  have hc : col < _HASH_SIZE := List.mem_range.mp hcol
  have hdiv : (row * _HASH_SIZE + col) / _HASH_SIZE = row := by
    simp only [_HASH_SIZE] at hc ⊢; omega
  have hmod : (row * _HASH_SIZE + col) % _HASH_SIZE = col := by
    simp only [_HASH_SIZE] at hc ⊢; omega
  simp only [dhashBit, hdiv, hmod]

lemma phashVal_lt (pixels : ℕ → ℕ) : ∀ n, phashVal pixels n < 2 ^ n := by
  intro n
  induction n with
  | zero => simp [phashVal]
  | succ n ih =>
    have hb := dhashBit_le_one pixels n
    simp only [phashVal, Nat.pow_succ]
    omega

lemma phashVal_testBit (pixels : ℕ → ℕ) :
    ∀ n j, j < n →
      (Nat.testBit (phashVal pixels n) j = true ↔ dhashBit pixels (n - 1 - j) = 1) := by
  intro n
  induction n with
  | zero => intro j hj; omega
  | succ n ih =>
    intro j hj
    match j with
    | 0 =>
      have hb := dhashBit_le_one pixels n
      simp only [phashVal, Nat.testBit_zero, Nat.succ_sub_one, Nat.sub_zero,
        decide_eq_true_eq]
      omega
    | j + 1 =>
      have hj' : j < n := by omega
      have hb := dhashBit_le_one pixels n
      have hdiv : (2 * phashVal pixels n + dhashBit pixels n) / 2 = phashVal pixels n := by
        omega
      rw [phashVal, Nat.testBit_add_one, hdiv]
      have : n + 1 - 1 - (j + 1) = n - 1 - j := by omega
      rw [this]
      exact ih j hj'

lemma dedupStep_none (d : ℤ) (st : List ℕ × List ℕ) (f : Frame)
    (h : Frame.img f = none) : dedupStep d st f = st := by
  simp [dedupStep, h]

lemma dedupStep_some (d : ℤ) (st : List ℕ × List ℕ) (f : Frame) (g : ℕ → ℕ)
    (h : Frame.img f = some g) :
    dedupStep d st f =
      if st.2 = [] ∨ d < (_hamming (_phash g) (st.2.getLastD 0) : ℤ)
      then (st.1 ++ [Frame.path f], st.2 ++ [_phash g]) else st := by
  rcases hl : (st.2).getLast? with _ | lastKept
  · rw [if_pos (Or.inl (List.getLast?_eq_none_iff.mp hl))]
    simp [dedupStep, h, hl]
  · have hne : st.2 ≠ [] := by
      intro hnil; rw [hnil] at hl; simp at hl
    have hD : st.2.getLastD 0 = lastKept := by
      rw [List.getLastD_eq_getLast?, hl, Option.getD_some]
    rw [hD]
    by_cases hcmp : d < (_hamming (_phash g) lastKept : ℤ)
    · rw [if_pos (Or.inr hcmp)]
      simp [dedupStep, h, hl, hcmp]
    · rw [if_neg (by intro hor; rcases hor with hnil | hlt
                     · exact hne hnil
                     · exact hcmp hlt)]
      simp [dedupStep, h, hl, hcmp]

lemma foldl_dedupStep_corr (d : ℤ) :
    ∀ (l : List Frame) (kf0 : List Frame),
      ∃ kf1 : List Frame, kf1.Sublist l ∧ (∀ f ∈ kf1, (Frame.img f).isSome) ∧
        List.foldl (dedupStep d) (kf0.map Frame.path, kf0.map hashOf) l
          = ((kf0 ++ kf1).map Frame.path, (kf0 ++ kf1).map hashOf) := by
  intro l
  induction l with
  | nil =>
    intro kf0
    exact ⟨[], List.Sublist.refl _, by simp, by simp⟩
  | cons f tl ih =>
    intro kf0
    rcases himg : Frame.img f with _ | g
    · obtain ⟨kf1, hsub, hsome, heq⟩ := ih kf0
      exact ⟨kf1, hsub.cons f, hsome, by rw [List.foldl_cons, dedupStep_none d _ f himg, heq]⟩
    · have hstep := dedupStep_some d (kf0.map Frame.path, kf0.map hashOf) f g himg
      by_cases hc : kf0.map hashOf = [] ∨
          d < (_hamming (_phash g) ((kf0.map hashOf).getLastD 0) : ℤ)
      · -- the candidate is retained
        obtain ⟨kf1, hsub, hsome, heq⟩ := ih (kf0 ++ [f])
        refine ⟨f :: kf1, hsub.cons₂ f, ?_, ?_⟩
        · intro f' hf'
          rcases List.mem_cons.mp hf' with hh | hh
          · rw [hh, himg]; rfl
          · exact hsome f' hh
        · rw [List.foldl_cons, hstep, if_pos hc]
          have hhf : hashOf f = _phash g := by simp [hashOf, himg]
          have hst : (kf0.map Frame.path ++ [Frame.path f], kf0.map hashOf ++ [_phash g])
              = ((kf0 ++ [f]).map Frame.path, (kf0 ++ [f]).map hashOf) := by
            simp [hhf]
          rw [hst, heq, List.append_assoc, List.singleton_append]
      · -- the candidate is discarded; the state is untouched
        obtain ⟨kf1, hsub, hsome, heq⟩ := ih kf0
        exact ⟨kf1, hsub.cons f, hsome, by rw [List.foldl_cons, hstep, if_neg hc, heq]⟩

lemma pyInt_mono {q r : ℚ} (h : q ≤ r) : pyInt q ≤ pyInt r := by
  unfold pyInt
  by_cases hq : 0 ≤ q
  · rw [if_pos hq, if_pos (le_trans hq h)]
    exact Int.floor_mono h
  · rw [if_neg hq]
    by_cases hr : 0 ≤ r
    · rw [if_pos hr]
      have h1 : ⌈q⌉ ≤ 0 := Int.ceil_le.mpr (by push_cast; linarith [lt_of_not_ge hq])
      have h2 : (0 : ℤ) ≤ ⌊r⌋ := Int.floor_nonneg.mpr hr
      omega
    · rw [if_neg hr]
      exact Int.ceil_mono h

lemma max_dist_nonneg {t : ℚ} (ht : t ≤ 1) : 0 ≤ max_dist t := by
  have hq : 0 ≤ (1 - t) * ((_HASH_SIZE : ℚ) * (_HASH_SIZE : ℚ)) := by
    have : (0 : ℚ) ≤ 1 - t := by linarith
    positivity
  rw [max_dist, pyInt, if_pos hq]
  exact Int.floor_nonneg.mpr hq

lemma max_dist_neg {t : ℚ} (ht : 1 + 1/256 ≤ t) : max_dist t < 0 := by
  have hq : (1 - t) * ((_HASH_SIZE : ℚ) * (_HASH_SIZE : ℚ)) ≤ -1 := by
    rw [_HASH_SIZE]
    push_cast
    nlinarith
  have hq' : ¬(0 : ℚ) ≤ (1 - t) * ((_HASH_SIZE : ℚ) * (_HASH_SIZE : ℚ)) := by
    intro hc; linarith
  rw [max_dist, pyInt, if_neg hq']
  have : ⌈(1 - t) * ((_HASH_SIZE : ℚ) * (_HASH_SIZE : ℚ))⌉ ≤ -1 :=
    Int.ceil_le.mpr (by push_cast; linarith)
  omega

lemma hamming_self (a : ℕ) : _hamming a a = 0 := by
  rw [_hamming, Nat.xor_self]
  rfl

/-- When the cutoff is negative every decodable frame passes the strict
comparison, so the fold appends every candidate. -/
lemma foldl_dedupStep_neg (md : ℤ) (hmd : md < 0) :
    ∀ (l : List Frame) (st : List ℕ × List ℕ), (∀ f ∈ l, (Frame.img f).isSome) →
      List.foldl (dedupStep md) st l = (st.1 ++ l.map Frame.path, st.2 ++ l.map hashOf) := by
  intro l
  induction l with
  | nil => intro st _; simp
  | cons f tl ih =>
    intro st hdec
    obtain ⟨g, hg⟩ := Option.isSome_iff_exists.mp (hdec f (List.mem_cons_self f tl))
    have hcond : st.2 = [] ∨ md < (_hamming (_phash g) (st.2.getLastD 0) : ℤ) :=
      Or.inr (lt_of_lt_of_le hmd (Int.natCast_nonneg _))
    rw [List.foldl_cons, dedupStep_some md st f g hg, if_pos hcond,
      ih _ (fun f' hf' => hdec f' (List.mem_cons_of_mem f hf'))]
    have hhf : hashOf f = _phash g := by simp [hashOf, hg]
    simp [hhf]

/-- Repeats of an already-retained frame never pass the strict comparison
when the cutoff is nonnegative: the state stays fixed. -/
lemma foldl_dup_const (md : ℤ) (hmd : 0 ≤ md) (x : Frame) (gx : ℕ → ℕ)
    (hgx : Frame.img x = some gx) :
    ∀ m, List.foldl (dedupStep md) ([Frame.path x], [_phash gx]) (List.replicate m x)
      = ([Frame.path x], [_phash gx]) := by
  intro m
  induction m with
  | zero => simp
  | succ m ih =>
    rw [List.replicate_succ, List.foldl_cons, dedupStep_some md _ x gx hgx, if_neg, ih]
    intro hor
    rcases hor with hnil | hlt
    · simp at hnil
    · rw [show ([_phash gx] : List ℕ).getLastD 0 = _phash gx from rfl,
        hamming_self] at hlt
      simp at hlt
      omega

lemma dedup_run_corr (d : ℤ) (l : List Frame) :
    ∃ kf : List Frame, kf.Sublist l ∧ (∀ f ∈ kf, (Frame.img f).isSome) ∧
      List.foldl (dedupStep d) ([], []) l = (kf.map Frame.path, kf.map hashOf) := by
  obtain ⟨kf, hsub, hsome, heq⟩ := foldl_dedupStep_corr d l []
  refine ⟨kf, hsub, hsome, ?_⟩
  simpa using heq

/-- C1: for a candidate whose fingerprinting succeeds, the loop of
`deduplicate` retains it exactly when either no fingerprint has been stored
yet or the Hamming distance to the most recently STORED (retained)
fingerprint strictly exceeds the cutoff; otherwise — in particular when the
distance exactly equals the cutoff — the whole state, comparison baseline
included, is left unchanged. -/
theorem dedup_retention_rule (d : ℤ) (st : List ℕ × List ℕ) (f : Frame) (g : ℕ → ℕ)
    (hf : Frame.img f = some g) :
    (dedupStep d st f = (st.1 ++ [Frame.path f], st.2 ++ [_phash g])
       ↔ (st.2 = [] ∨ d < (_hamming (_phash g) (st.2.getLastD 0) : ℤ)))
    ∧ (¬(st.2 = [] ∨ d < (_hamming (_phash g) (st.2.getLastD 0) : ℤ)) →
        dedupStep d st f = st)
    ∧ (∀ lastKept, st.2.getLast? = some lastKept →
        (_hamming (_phash g) lastKept : ℤ) = d → dedupStep d st f = st) := by
  have hs := dedupStep_some d st f g hf
  refine ⟨⟨?_, ?_⟩, ?_, ?_⟩
  · intro heq
    by_contra hc
    rw [hs, if_neg hc] at heq
    have hlen := congrArg (fun p => p.2.length) heq
    simp at hlen
  · intro hc; rw [hs, if_pos hc]
  · intro hc; rw [hs, if_neg hc]
  · intro lastKept hl hd
    have hne : st.2 ≠ [] := by intro hnil; rw [hnil] at hl; simp at hl
    have hD : st.2.getLastD 0 = lastKept := by
      rw [List.getLastD_eq_getLast?, hl, Option.getD_some]
    rw [hs, if_neg]
    intro hor
    rcases hor with hnil | hlt
    · exact hne hnil
    · rw [hD, hd] at hlt
      exact lt_irrefl d hlt

/-- Witness for C1 at the empty state and a concrete decodable frame. -/
theorem dedup_retention_rule_witness :
    dedupStep 0 ([], []) ⟨2, some (unaryGrid 0)⟩ = ([2], [_phash (unaryGrid 0)]) ↔
      (([] : List ℕ) = [] ∨ (0 : ℤ) < (_hamming (_phash (unaryGrid 0)) 0 : ℤ)) :=
  (dedup_retention_rule 0 ([], []) ⟨2, some (unaryGrid 0)⟩ (unaryGrid 0) rfl).1

/-- C2 counterexample: at threshold `0.99` the source's cutoff
`int((1.0 − 0.99) × 256)` is `2` (truncation of `2.56`), while
`round((1.0 − 0.99) × 256) = 3`. -/
theorem max_dist_round_cex :
    max_dist (99/100) = 2 ∧
    round ((1 - (99/100 : ℚ)) * ((_HASH_SIZE : ℚ) * (_HASH_SIZE : ℚ))) = 3 ∧
    max_dist (99/100)
      ≠ round ((1 - (99/100 : ℚ)) * ((_HASH_SIZE : ℚ) * (_HASH_SIZE : ℚ))) := by
  have h1 : max_dist (99/100) = 2 := by norm_num [max_dist, pyInt, _HASH_SIZE]
  have h2 : round ((1 - (99/100 : ℚ)) * ((_HASH_SIZE : ℚ) * (_HASH_SIZE : ℚ))) = 3 := by
    rw [round_eq]
    norm_num [_HASH_SIZE]
  exact ⟨h1, h2, by rw [h1, h2]; decide⟩

/-- C2 (amended): for every threshold in `[0, 1]` the integer cutoff equals
`⌊(1.0 − threshold) × 256⌋` — Python's truncating `int()` conversion, not
rounding to nearest — computed once as a pure function of the threshold. -/
theorem max_dist_eq_floor (t : ℚ) (_h0 : 0 ≤ t) (h1 : t ≤ 1) :
    max_dist t = ⌊(1 - t) * ((_HASH_SIZE : ℚ) * (_HASH_SIZE : ℚ))⌋ := by
  have hq : 0 ≤ (1 - t) * ((_HASH_SIZE : ℚ) * (_HASH_SIZE : ℚ)) := by
    have h1t : (0 : ℚ) ≤ 1 - t := by linarith
    positivity
  rw [max_dist, pyInt, if_pos hq]

/-- Witness for C2 (amended) at threshold `1/2`. -/
theorem max_dist_eq_floor_witness :
    (0 : ℚ) ≤ 1/2 ∧ (1/2 : ℚ) ≤ 1 ∧
    max_dist (1/2) = ⌊(1 - (1/2 : ℚ)) * ((_HASH_SIZE : ℚ) * (_HASH_SIZE : ℚ))⌋ :=
  ⟨by norm_num, by norm_num, max_dist_eq_floor (1/2) (by norm_num) (by norm_num)⟩

/-- C3 counterexample: on `cexFrames`, raising the threshold from `253/256`
to `127/128` (both inside `[0, 1]`) DECREASES the number of retained frames
from 3 to 2, so the retained count is not monotone in the threshold. -/
theorem threshold_mono_cex :
    (0 : ℚ) ≤ 253/256 ∧ (253/256 : ℚ) ≤ 127/128 ∧ (127/128 : ℚ) ≤ 1 ∧
    (deduplicate cexFrames (127/128)).length
      < (deduplicate cexFrames (253/256)).length := by
  refine ⟨by norm_num, by norm_num, by norm_num, ?_⟩
  rw [deduplicate_eval cexFrames (127/128) 2 (by norm_num [max_dist, pyInt, _HASH_SIZE]),
    deduplicate_eval cexFrames (253/256) 3 (by norm_num [max_dist, pyInt, _HASH_SIZE])]
  decide

/-- C3 (amended): as the threshold increases the integer cutoff is
monotonically non-increasing, so a candidate that passes the strict
retention comparison against a fixed baseline at some threshold also passes
it at every higher threshold; the TOTAL retained count over a sequence is,
however, not monotone in general (see the counterexample). -/
theorem max_dist_antitone (t1 t2 : ℚ) (h12 : t1 ≤ t2) :
    max_dist t2 ≤ max_dist t1 ∧
    ∀ a b : ℕ, max_dist t1 < (_hamming a b : ℤ) → max_dist t2 < (_hamming a b : ℤ) := by
  have hmono : max_dist t2 ≤ max_dist t1 := by
    rw [max_dist, max_dist]
    exact pyInt_mono (mul_le_mul_of_nonneg_right (by linarith) (by positivity))
  exact ⟨hmono, fun a b h => lt_of_le_of_lt hmono h⟩

/-- Witness for C3 (amended) at thresholds `1/2 ≤ 1`. -/
theorem max_dist_antitone_witness : max_dist 1 ≤ max_dist (1/2) :=
  (max_dist_antitone (1/2) 1 (by norm_num)).1

/-- C4: for every input and threshold the output of `deduplicate` is a
subsequence of the input identifier sequence — same relative order, nothing
inserted, and each input position contributes at most once. -/
theorem dedup_sublist (l : List Frame) (t : ℚ) :
    (deduplicate l t).Sublist (l.map Frame.path) := by
  obtain ⟨kf, hsub, _, heq⟩ := dedup_run_corr (max_dist t) l
  have h1 : deduplicate l t = kf.map Frame.path := by
    rw [deduplicate, heq]
  rw [h1]
  exact hsub.map Frame.path

/-- C5: on a non-empty input whose candidates all decode, the first
candidate is always retained (it heads the output), and a single decodable
candidate is returned as the sole output. -/
theorem dedup_first_retained (f : Frame) (rest : List Frame) (t : ℚ)
    (hall : ∀ c ∈ f :: rest, (Frame.img c).isSome) :
    (deduplicate (f :: rest) t).head? = some (Frame.path f)
    ∧ deduplicate [f] t = [Frame.path f] := by
  obtain ⟨g, hg⟩ := Option.isSome_iff_exists.mp (hall f (List.mem_cons_self f rest))
  have hstep : dedupStep (max_dist t) ([], []) f = ([Frame.path f], [_phash g]) := by
    rw [dedupStep_some _ _ f g hg, if_pos (Or.inl rfl)]
    rfl
  constructor
  · rw [deduplicate, List.foldl_cons, hstep]
    obtain ⟨kf1, hsub, hsome, heq⟩ := foldl_dedupStep_corr (max_dist t) rest [f]
    have hinit : (([f].map Frame.path : List ℕ), ([f].map hashOf : List ℕ))
        = ([Frame.path f], [_phash g]) := by
      simp [hashOf, hg]
    rw [← hinit, heq]
    simp
  · rw [deduplicate, List.foldl_cons, List.foldl_nil, hstep]

/-- Witness for C5 with a single concrete decodable frame. -/
theorem dedup_first_retained_witness :
    (deduplicate [⟨4, some (unaryGrid 0)⟩] 1).head? = some 4
    ∧ deduplicate [⟨4, some (unaryGrid 0)⟩] 1 = [4] :=
  dedup_first_retained ⟨4, some (unaryGrid 0)⟩ [] 1
    (by intro c hc; rw [List.mem_singleton] at hc; subst hc; rfl)

/-- C6: a candidate whose fingerprinting fails is skipped entirely — neither
retained nor installed as comparison baseline, the loop state is untouched —
and an input consisting only of unreadable candidates yields the empty
output; `deduplicate` is a total function, so a per-item failure is never
fatal to the pass. -/
theorem dedup_skips_unreadable (t : ℚ) :
    (∀ (d : ℤ) (st : List ℕ × List ℕ) (f : Frame), Frame.img f = none →
        dedupStep d st f = st)
    ∧ ∀ l : List Frame, (∀ f ∈ l, Frame.img f = none) → deduplicate l t = [] := by
  have key : ∀ l' : List Frame, (∀ f ∈ l', Frame.img f = none) →
      ∀ st : List ℕ × List ℕ, List.foldl (dedupStep (max_dist t)) st l' = st := by
    intro l'
    induction l' with
    | nil => intro _ st; rfl
    | cons f tl ih =>
      intro h st
      rw [List.foldl_cons, dedupStep_none _ _ _ (h f (List.mem_cons_self f tl)),
        ih (fun f' hf' => h f' (List.mem_cons_of_mem f hf')) st]
  refine ⟨fun d st f h => dedupStep_none d st f h, ?_⟩
  intro l hl
  rw [deduplicate, key l hl ([], [])]

/-- Witness for C6 with a concrete unreadable frame. -/
theorem dedup_skips_unreadable_witness :
    dedupStep 0 ([], []) ⟨5, none⟩ = ([], []) ∧ deduplicate [⟨5, none⟩] 0 = [] :=
  ⟨(dedup_skips_unreadable 0).1 0 ([], []) ⟨5, none⟩ rfl,
   (dedup_skips_unreadable 0).2 [⟨5, none⟩]
     (by intro f hf; rw [List.mem_singleton] at hf; subst hf; rfl)⟩

/-- C7 counterexample: the out-of-range threshold `−1` is accepted without
any validation error: the run starts, processes its candidate and retains
it, instead of surfacing an invalid-configuration failure before processing. -/
theorem invalid_config_cex :
    ((-1 : ℚ) < 0 ∨ (1 : ℚ) < -1) ∧ deduplicate [⟨0, some (unaryGrid 0)⟩] (-1) = [0] := by
  refine ⟨Or.inl (by norm_num), ?_⟩
  rw [deduplicate_eval _ _ 512 (by norm_num [max_dist, pyInt, _HASH_SIZE])]
  decide

/-- C7 (amended): `deduplicate` performs no configuration validation and
never refuses to run — any threshold is accepted and the pass proceeds; in
particular a threshold of `1 + 1/256` or more makes the cutoff negative, so
every decodable candidate is retained rather than any error being raised. -/
theorem no_config_validation (t : ℚ) (ht : 1 + 1/256 ≤ t) (l : List Frame)
    (hdec : ∀ f ∈ l, (Frame.img f).isSome) :
    deduplicate l t = l.map Frame.path := by
  rw [deduplicate, foldl_dedupStep_neg (max_dist t) (max_dist_neg ht) l ([], []) hdec]
  simp

/-- Witness for C7 (amended) at threshold `2`. -/
theorem no_config_validation_witness :
    (1 + 1/256 : ℚ) ≤ 2 ∧ deduplicate [⟨7, some (unaryGrid 0)⟩] 2 = [7] := by
  refine ⟨by norm_num, ?_⟩
  have h := no_config_validation 2 (by norm_num) [⟨7, some (unaryGrid 0)⟩]
    (by intro f hf; rw [List.mem_singleton] at hf; subst hf; rfl)
  simpa using h

/-- C8: the fingerprint engine reads the fixed `(S+1) × S = 17 × 16`
resampled luminance grid (the source's resize target is the constant pair
`(_HASH_SIZE + 1, _HASH_SIZE)`, independent of the original resolution and
aspect ratio); for EVERY such grid the fingerprint is below `2^(S²) = 2^256`
— the same constant bit length for all images of a run — and, packing
most-significant-bit first in row-major scan order, the bit at scan position
`r·S + c` (binary digit `255 − (r·S + c)`) is set exactly when the luminance
at `(r, c)` strictly exceeds the luminance at `(r, c + 1)`. -/
theorem phash_bit_spec (pixels : ℕ → ℕ) :
    _phash pixels < 2 ^ (_HASH_SIZE * _HASH_SIZE) ∧
    ∀ r c : ℕ, r < _HASH_SIZE → c < _HASH_SIZE →
      (Nat.testBit (_phash pixels)
          (_HASH_SIZE * _HASH_SIZE - 1 - (r * _HASH_SIZE + c)) = true
        ↔ pixels (r * (_HASH_SIZE + 1) + c) > pixels (r * (_HASH_SIZE + 1) + c + 1)) := by
  rw [phash_eq_phashVal]
  refine ⟨phashVal_lt pixels _, ?_⟩
  intro r c hr hc
  have hj : _HASH_SIZE * _HASH_SIZE - 1 - (r * _HASH_SIZE + c)
      < _HASH_SIZE * _HASH_SIZE := by
    simp only [_HASH_SIZE]
    omega
  rw [phashVal_testBit pixels _ _ hj]
  have hidx : _HASH_SIZE * _HASH_SIZE - 1
      - (_HASH_SIZE * _HASH_SIZE - 1 - (r * _HASH_SIZE + c)) = r * _HASH_SIZE + c := by
    simp only [_HASH_SIZE] at hr hc ⊢
    omega
  rw [hidx, dhashBit]
  have hdiv : (r * _HASH_SIZE + c) / _HASH_SIZE = r := by
    simp only [_HASH_SIZE] at hc ⊢
    omega
  have hmod : (r * _HASH_SIZE + c) % _HASH_SIZE = c := by
    simp only [_HASH_SIZE] at hc ⊢
    omega
  rw [hdiv, hmod]
  split <;> simp_all

/-- Witness for C8 at a concrete grid and cell. -/
theorem phash_bit_spec_witness :
    _phash (unaryGrid 1) < 2 ^ (_HASH_SIZE * _HASH_SIZE) ∧
    (Nat.testBit (_phash (unaryGrid 1))
        (_HASH_SIZE * _HASH_SIZE - 1 - (15 * _HASH_SIZE + 15)) = true
      ↔ unaryGrid 1 (15 * (_HASH_SIZE + 1) + 15)
          > unaryGrid 1 (15 * (_HASH_SIZE + 1) + 15 + 1)) :=
  ⟨(phash_bit_spec (unaryGrid 1)).1,
   (phash_bit_spec (unaryGrid 1)).2 15 15 (by decide) (by decide)⟩

/-- C9 counterexample: two pixel-wise distinct images can share a
fingerprint; with one copy of `X` followed by the distinct image `Y` and
threshold `1/2 < 1.0`, only ONE frame is retained instead of the claimed
two. -/
theorem dedup_exact_duplicates_cex :
    (fun _ => 0 : ℕ → ℕ) ≠ (fun _ => 1 : ℕ → ℕ) ∧ ((1 : ℚ)/2 < 1) ∧
    deduplicate [⟨0, some fun _ => 0⟩, ⟨1, some fun _ => 1⟩] (1/2) = [0] := by
  refine ⟨?_, by norm_num, ?_⟩
  · intro h
    have h0 := congrFun h 0
    simp at h0
  · rw [deduplicate_eval _ _ 128 (by norm_num [max_dist, pyInt, _HASH_SIZE])]
    decide

/-- C9 (amended): given `N ≥ 1` copies of a decodable image `X` followed by
one decodable image `Y`, a threshold below `1.0`, and fingerprints whose
Hamming distance strictly exceeds the cutoff, exactly two frames are
retained: the first copy of `X` and the occurrence of `Y`. -/
theorem dedup_exact_duplicates (x y : Frame) (gx gy : ℕ → ℕ)
    (hgx : Frame.img x = some gx) (hgy : Frame.img y = some gy)
    (n : ℕ) (hn : 1 ≤ n) (t : ℚ) (ht : t < 1)
    (hdist : max_dist t < (_hamming (_phash gy) (_phash gx) : ℤ)) :
    deduplicate (List.replicate n x ++ [y]) t = [Frame.path x, Frame.path y] := by
  obtain ⟨m, rfl⟩ : ∃ m, n = m + 1 := ⟨n - 1, by omega⟩
  have hmd : 0 ≤ max_dist t := max_dist_nonneg (le_of_lt ht)
  have hstep1 : dedupStep (max_dist t) ([], []) x = ([Frame.path x], [_phash gx]) := by
    rw [dedupStep_some _ _ x gx hgx, if_pos (Or.inl rfl)]
    rfl
  have hstepy : dedupStep (max_dist t) ([Frame.path x], [_phash gx]) y
      = ([Frame.path x, Frame.path y], [_phash gx, _phash gy]) := by
    rw [dedupStep_some _ _ y gy hgy, if_pos (Or.inr (by simpa using hdist))]
    rfl
  have hinner : List.foldl (dedupStep (max_dist t)) ([], []) (List.replicate (m + 1) x)
      = ([Frame.path x], [_phash gx]) := by
    rw [List.replicate_succ, List.foldl_cons, hstep1,
      foldl_dup_const (max_dist t) hmd x gx hgx m]
  rw [deduplicate, List.foldl_append, hinner, List.foldl_cons, List.foldl_nil, hstepy]

/-- Witness for C9 (amended): one copy of a frame with fingerprint `0`
followed by a frame with fingerprint `7`, at threshold `127/128`. -/
theorem dedup_exact_duplicates_witness :
    1 ≤ 1 ∧ (127/128 : ℚ) < 1 ∧
    max_dist (127/128) < (_hamming (_phash (unaryGrid 3)) (_phash (unaryGrid 0)) : ℤ) ∧
    deduplicate
        (List.replicate 1 ⟨0, some (unaryGrid 0)⟩ ++ [⟨1, some (unaryGrid 3)⟩]) (127/128)
      = [0, 1] := by
  have hd : max_dist (127/128)
      < (_hamming (_phash (unaryGrid 3)) (_phash (unaryGrid 0)) : ℤ) := by
    rw [show max_dist (127/128) = 2 from by norm_num [max_dist, pyInt, _HASH_SIZE]]
    decide
  exact ⟨le_refl 1, by norm_num, hd,
    dedup_exact_duplicates ⟨0, some (unaryGrid 0)⟩ ⟨1, some (unaryGrid 3)⟩
      (unaryGrid 0) (unaryGrid 3) rfl rfl 1 (le_refl 1) (127/128) (by norm_num) hd⟩

/-- C10: at every point of the pass — after any number `k` of loop
iterations — the retained-identifier list and the stored-fingerprint list
have equal length, and both are images of one and the same retained
subsequence of decodable processed frames, the first under `path` and the
second under the fingerprint of the frame's image; hence the `i`-th stored
fingerprint is exactly the fingerprint of the `i`-th retained identifier,
and the comparison baseline (the last stored fingerprint) is the
fingerprint of the last element currently in the output. -/
theorem dedup_state_invariant (l : List Frame) (t : ℚ) (k : ℕ) :
    ((List.foldl (dedupStep (max_dist t)) ([], []) (l.take k)).1).length
      = ((List.foldl (dedupStep (max_dist t)) ([], []) (l.take k)).2).length ∧
    ∃ kf : List Frame, kf.Sublist (l.take k) ∧ (∀ f ∈ kf, (Frame.img f).isSome) ∧
      (List.foldl (dedupStep (max_dist t)) ([], []) (l.take k)).1 = kf.map Frame.path ∧
      (List.foldl (dedupStep (max_dist t)) ([], []) (l.take k)).2 = kf.map hashOf := by
  obtain ⟨kf, hsub, hsome, heq⟩ := dedup_run_corr (max_dist t) (l.take k)
  have h1 : (List.foldl (dedupStep (max_dist t)) ([], []) (l.take k)).1
      = kf.map Frame.path := by rw [heq]
  have h2 : (List.foldl (dedupStep (max_dist t)) ([], []) (l.take k)).2
      = kf.map hashOf := by rw [heq]
  refine ⟨?_, kf, hsub, hsome, h1, h2⟩
  rw [h1, h2, List.length_map, List.length_map]
